import Mathlib

/-!
Verification development for the act_runner agent core: a shallow embedding of
the streaming Reporter (internal/pkg/report/reporter.go), the task Runner
(internal/app/run/runner.go) and the Poller shutdown path
(internal/app/poll/poller.go), with theorems settling the specification claims
about log-command handling, secret redaction, acknowledgement handling,
output registration, task close semantics and shutdown.

Strings are modelled as `List Char` (Go strings are byte sequences; the log
pipeline treats them as text and the final `strings.ToValidUTF8` coercion is
the identity on this model, where every value is already valid text).
Timestamps are modelled as `Nat`.
-/

set_option maxRecDepth 8000
set_option maxHeartbeats 1000000
set_option linter.unusedVariables false

namespace ActRunner

/-- Job/step result enumeration (`runnerv1.Result`). -/
inductive Result where
  | unspecified
  | success
  | failure
  | cancelled
  | skipped
deriving DecidableEq

/-- A single transcript log row (`runnerv1.LogRow`): timestamp and content. -/
structure LogRow where
  time : Nat
  content : List Char
deriving DecidableEq

/-- Per-step state (`runnerv1.StepState`). -/
structure StepState where
  id : Int
  startedAt : Option Nat := none
  stoppedAt : Option Nat := none
  result : Result := .unspecified
  logIndex : Int := 0
  logLength : Int := 0
deriving DecidableEq

/-- Value stored in the Reporter outputs map: a pending string value, or the
sentinel `struct\x7b\x7d` stored once the coordinator acknowledged the key. -/
inductive OutVal where
  | str (v : List Char)
  | sent
deriving DecidableEq

/-- Data fields of `report.Reporter` (the context, RPC client and mutexes are
external collaborators; `state` is inlined as `result`, `startedAt`,
`stoppedAt`, `taskId`, `steps`). `oldnew` is the redaction table as
(old, new) pairs, in order; the Go code keeps the flat `[]string` form plus a
`strings.Replacer` rebuilt from it. -/
structure Reporter where
  closed : Bool := false
  logOffset : Int := 0
  logRows : List LogRow := []
  oldnew : List (List Char × List Char) := []
  result : Result := .unspecified
  startedAt : Option Nat := none
  stoppedAt : Option Nat := none
  taskId : Int := 0
  steps : List StepState := []
  outputs : List (List Char × OutVal) := []
  debugOutputEnabled : Bool := false
  stopCommandEndToken : List Char := []
deriving DecidableEq

/-! ### Go strings.Replacer

`strings.NewReplacer(oldnew...).Replace(s)` scans `s` left to right; at each
position the first (argument-order) old string that is a prefix of the rest is
replaced and the scan jumps past the consumed input.  An empty old string
matches at every position, including the end, but after an empty match the
replacer refuses a second empty match at the same position
(`prevMatchEmpty` in go/src/strings/replace.go); the flag below models that. -/

/-- Lookup of the first pattern of `table` matching at the head of `s`;
with `ignoreEmpty` set (after an empty match) empty patterns are skipped. -/
def goMatch (ignoreEmpty : Bool) (table : List (List Char × List Char))
    (s : List Char) : Option (List Char × List Char) :=
  table.find? fun p => (!ignoreEmpty || !p.1.isEmpty) && p.1.isPrefixOf s

/-- The scan loop of the generic Go replacer.  The boolean is Go's
`prevMatchEmpty`: directly after an empty-pattern match, the empty pattern is
not allowed to match again at the same position. -/
def goReplaceAux (table : List (List Char × List Char)) :
    Bool → List Char → List Char
  | true, [] => []
  | false, [] =>
    match table.find? (fun p => p.1.isEmpty) with
    | some p => p.2
    | none => []
  | true, c :: rest =>
    match h : goMatch true table (c :: rest) with
    | some p => p.2 ++ goReplaceAux table false ((c :: rest).drop p.1.length)
    | none => c :: goReplaceAux table false rest
  | false, c :: rest =>
    match h : goMatch false table (c :: rest) with
    | some p =>
      if hp : p.1 = [] then p.2 ++ goReplaceAux table true (c :: rest)
      else p.2 ++ goReplaceAux table false ((c :: rest).drop p.1.length)
    | none => c :: goReplaceAux table false rest
termination_by b s => 2 * s.length + (if b then 0 else 1)
decreasing_by
  · have hp' := List.find?_some h
    simp only [Bool.and_eq_true, Bool.or_eq_true, Bool.not_eq_true',
      List.isPrefixOf_iff_prefix] at hp'
    have h1 := hp'.2.length_le
    have h2 : p.1 ≠ [] := by
      rcases hp'.1 with h' | h'
      · simp at h'
      · simpa using h'
    have h3 : 1 ≤ p.1.length := by
      cases hl : p.1 with
      | nil => exact absurd hl h2
      | cons a l => simp
    simp only [List.length_drop, List.length_cons, if_true, if_false] at *
    omega
  · simp only [List.length_cons, if_true, if_false]; omega
  · simp only [List.length_cons, if_true, if_false]; omega
  · have hp' := List.find?_some h
    simp only [Bool.and_eq_true, Bool.or_eq_true, Bool.not_eq_true',
      List.isPrefixOf_iff_prefix] at hp'
    have h1 := hp'.2.length_le
    have h3 : 1 ≤ p.1.length := by
      cases hl : p.1 with
      | nil => exact absurd hl hp
      | cons a l => simp
    simp only [List.length_drop, List.length_cons, if_true, if_false] at *
    omega
  · simp only [List.length_cons, if_true, if_false]; omega

/-- The replacement string every entry of a Reporter redaction table maps to. -/
def stars : List Char := ['*', '*', '*']

/-- Structurally recursive presentation of the same scan, on explicit fuel,
so that concrete runs reduce inside the kernel; `goReplaceFuel_eq` shows the
fuel never runs out at `2 * length + 1`. -/
def goReplaceFuel (table : List (List Char × List Char)) :
    Nat → Bool → List Char → List Char
  | 0, _, s => s
  | _ + 1, true, [] => []
  | _ + 1, false, [] =>
    match table.find? (fun p => p.1.isEmpty) with
    | some p => p.2
    | none => []
  | fuel + 1, true, c :: rest =>
    match goMatch true table (c :: rest) with
    | some p => p.2 ++ goReplaceFuel table fuel false ((c :: rest).drop p.1.length)
    | none => c :: goReplaceFuel table fuel false rest
  | fuel + 1, false, c :: rest =>
    match goMatch false table (c :: rest) with
    | some p =>
      if p.1 = [] then p.2 ++ goReplaceFuel table fuel true (c :: rest)
      else p.2 ++ goReplaceFuel table fuel false ((c :: rest).drop p.1.length)
    | none => c :: goReplaceFuel table fuel false rest

/-- `strings.NewReplacer(oldnew...).Replace(s)` (computable form; equal to
the scan loop `goReplaceAux` by `goReplace_eq_aux`). -/
def goReplace (table : List (List Char × List Char)) (s : List Char) :
    List Char :=
  goReplaceFuel table (2 * s.length + 1) false s

/-! ### Log line parsing (Reporter.parseLogRow and helpers) -/

/-- `strings.TrimRightFunc(msg, r == CR or LF)`. -/
def trimRightCRLF (s : List Char) : List Char :=
  (s.reverse.dropWhile fun c => c == '\r' || c == '\n').reverse

/-- Character class `[^ :]` of the command group of `cmdRegex`. -/
def isCmdChar (c : Char) : Bool := c != ' ' && c != ':'

def hasNl (s : List Char) : Bool := s.any fun c => c == '\n'

def addMaskCmd : List Char := "add-mask".toList

def debugCmd : List Char := "debug".toList

def noticeCmd : List Char := "notice".toList

def warningCmd : List Char := "warning".toList

def errorCmd : List Char := "error".toList

def groupCmd : List Char := "group".toList

def endgroupCmd : List Char := "endgroup".toList

def stopCommandsCmd : List Char := "stop-commands".toList

def mainStage : List Char := "Main".toList

/-- Candidate decompositions of the remainder `u` after the command group as
`params ++ "::" ++ value` — the backtracking positions of the `( .*)?::` part
of the regex, in ascending position.  `.` does not match a newline and `$`
anchors at the end of the content, so both parts must be newline-free. -/
def paramSplits (u : List Char) : List (List Char × List Char) :=
  (List.range (u.length + 1)).filterMap fun i =>
    if 1 ≤ i && (u.drop i).take 2 == [':', ':'] && !hasNl (u.take i)
        && !hasNl (u.drop (i + 2))
    then some (u.take i, u.drop (i + 2)) else none

/-- Go `cmdRegex.FindStringSubmatch(content)` for the anchored regex
`^::([^ :]+)( .*)?::(.*)$` under Go's leftmost-first (Perl backtracking)
submatch semantics.  The command group is the maximal run of non-space
non-colon characters after the leading `::` (a shorter run would leave a
character that can start neither the optional parameter group nor the literal
`::`); when the parameter group is present, greediness picks the last
possible `::` that still leaves a newline-free value.  Returns
(command, parameters-with-leading-space, value), or `none` when the line is
not a command. -/
def matchCmd (content : List Char) : Option (List Char × List Char × List Char) :=
  match content with
  | ':' :: ':' :: t =>
    let cmd := t.takeWhile isCmdChar
    if cmd = [] then none
    else
      match t.drop cmd.length with
      | ' ' :: u' =>
        (paramSplits (' ' :: u')).getLast?.map fun pv => (cmd, pv.1, pv.2)
      | ':' :: ':' :: v => if hasNl v then none else some (cmd, [], v)
      | _ => none
  | _ => none

/-- `Reporter.addMask`: append (msg, stars) to `oldnew` and rebuild the
replacer (the replacer is represented by `oldnew` itself). -/
def Reporter.addMask (r : Reporter) (msg : List Char) : Reporter :=
  { r with oldnew := r.oldnew ++ [(msg, stars)] }

/-- `Reporter.handleCommand`.  The cases mirror the Go `switch` in source
order; the final two cases are the dynamic `case r.stopCommandEndToken`
(clearing the stop token) and the default (pass the line through). -/
def Reporter.handleCommand (r : Reporter)
    (originalContent command parameters value : List Char) :
    Option (List Char) × Reporter :=
  if r.stopCommandEndToken ≠ [] ∧ command ≠ r.stopCommandEndToken then
    (some originalContent, r)
  else if command = addMaskCmd then
    (none, r.addMask value)
  else if command = debugCmd then
    (if r.debugOutputEnabled then some value else none, r)
  else if command = noticeCmd then
    (some originalContent, r)
  else if command = warningCmd then
    (some originalContent, r)
  else if command = errorCmd then
    (some originalContent, r)
  else if command = groupCmd then
    (some originalContent, r)
  else if command = endgroupCmd then
    (some originalContent, r)
  else if command = stopCommandsCmd then
    (none, { r with stopCommandEndToken := value })
  else if command = r.stopCommandEndToken then
    (none, { r with stopCommandEndToken := [] })
  else
    (some originalContent, r)

/-- Entry as delivered to the Reporter hook: the logrus message, time, and
the data fields the Reporter inspects.  `rawOutput = some b` models a present
boolean `raw_output` value; a present non-boolean value behaves exactly like
`some false` (the inner type assertion fails but the key is present). -/
structure Entry where
  time : Nat
  message : List Char
  stage : Option (List Char) := none
  stepNumber : Option Int := none
  rawOutput : Option Bool := none
  stepResult : Option (List Char) := none
  jobResult : Option (List Char) := none
deriving DecidableEq

/-- `Reporter.parseLogRow`: trim trailing CR/LF, interpret an in-band command
line, then redact through the replacer.  `strings.ToValidUTF8(content, "?")`
is the identity on this model (all values are valid text).  Returns the
produced row, if any, and the updated reporter (`handleCommand` can add a
mask or change the stop token). -/
def Reporter.parseLogRow (r : Reporter) (e : Entry) : Option LogRow × Reporter :=
  match matchCmd (trimRightCRLF e.message) with
  | some (command, parameters, value) =>
    match r.handleCommand (trimRightCRLF e.message) command parameters value with
    | (some c, r') => (some ⟨e.time, goReplace r'.oldnew c⟩, r')
    | (none, r') => (none, r')
  | none => (some ⟨e.time, goReplace r.oldnew (trimRightCRLF e.message)⟩, r)

/-! ### Reporter.Fire and state updates -/

instance : Inhabited StepState := ⟨⟨0, none, none, Result.unspecified, 0, 0⟩⟩

instance : Inhabited Result := ⟨Result.unspecified⟩

instance : Inhabited OutVal := ⟨OutVal.sent⟩

instance : Inhabited LogRow := ⟨⟨0, []⟩⟩

/-- `Reporter.duringSteps`. -/
def Reporter.duringSteps (r : Reporter) : Bool :=
  match r.steps with
  | [] => false
  | first :: rest =>
    if first.result = Result.unspecified ∧ first.logLength = 0 then false
    else if ((first :: rest).getLast (List.cons_ne_nil first rest)).result
        ≠ Result.unspecified then false
    else true

/-- `stringToResult` lookup in `Reporter.parseResult`: the string carried by
`jobResult` (or the `fmt.Stringer` form of `stepResult`); an unparseable
value yields `none` (Go: ok = false). -/
def parseResult (s : List Char) : Option Result :=
  if s = "success".toList then some Result.success
  else if s = "failure".toList then some Result.failure
  else if s = "skipped".toList then some Result.skipped
  else if s = "cancelled".toList then some Result.cancelled
  else none

def appendIfNotNil (s : List LogRow) (v : Option LogRow) : List LogRow :=
  match v with
  | some row => s ++ [row]
  | none => s

/-- In-place mutation of the step at index `i` (the Go code mutates through
the `*StepState` pointer). -/
def modifyStep (steps : List StepState) (i : Nat) (f : StepState → StepState) :
    List StepState :=
  match steps[i]? with
  | some s => steps.set i (f s)
  | none => steps

/-- Shared tail of `Fire` when no step is selected: route the entry to the
general row stream unless inside the steps window. -/
def Reporter.fireNoStep (r : Reporter) (e : Entry) : Reporter :=
  if r.duringSteps then r
  else
    let pr := r.parseLogRow e
    { pr.2 with logRows := appendIfNotNil pr.2.logRows pr.1 }

/-- The `stage != "Main"` branch of `Fire`: a parseable `jobResult` sets the
task result and stop time and normalises still-unspecified steps to
Cancelled (Skipped when the job result is skipped); then the entry goes to
the general stream when not during steps. -/
def Reporter.fireSetupTeardown (r : Reporter) (e : Entry) : Reporter :=
  let r :=
    match e.jobResult with
    | some jv =>
      match parseResult jv with
      | some jr =>
        { r with
          result := jr
          stoppedAt := some e.time
          steps := r.steps.map fun (s : StepState) =>
            if s.result = Result.unspecified then
              { s with result := if jr = Result.skipped then Result.skipped
                       else Result.cancelled }
            else s }
      | none => r
    | none => r
  r.fireNoStep e

/-- First phase of the `stage == "Main"` step branch of `Fire`:
`if step.StartedAt == nil` set it. -/
def Reporter.fireStepStart (r : Reporter) (e : Entry) (i : Nat) : Reporter :=
  if (r.steps.getD i default).startedAt = none then
    { r with steps := modifyStep r.steps i fun s => { s with startedAt := some e.time } }
  else r

/-- Second phase: the `raw_output` handling.  When the key is present and
true, a produced row captures `LogIndex` on first output, bumps `LogLength`
and is appended; when the key is absent, the entry goes to the general
stream unless during steps. -/
def Reporter.fireStepRaw (r : Reporter) (e : Entry) (i : Nat) : Reporter :=
  match e.rawOutput with
  | some b =>
    if b then
      let pr := r.parseLogRow e
      match pr.1 with
      | some row =>
        let r1 := pr.2
        let r2 :=
          if (r1.steps.getD i default).logLength = 0 then
            { r1 with steps := modifyStep r1.steps i fun s =>
                { s with logIndex := r1.logOffset + (r1.logRows.length : Int) } }
          else r1
        { r2 with
          steps := modifyStep r2.steps i fun s => { s with logLength := s.logLength + 1 }
          logRows := r2.logRows ++ [row] }
      | none => pr.2
    else r
  | none =>
    if r.duringSteps then r
    else
      let pr := r.parseLogRow e
      { pr.2 with logRows := appendIfNotNil pr.2.logRows pr.1 }

/-- Third phase: a parseable `stepResult` captures `LogIndex` for a step
with no output yet, then sets the step result and stop time. -/
def Reporter.fireStepResult (r : Reporter) (e : Entry) (i : Nat) : Reporter :=
  match e.stepResult with
  | some sv =>
    match parseResult sv with
    | some sr =>
      let r1 :=
        if (r.steps.getD i default).logLength = 0 then
          { r with steps := modifyStep r.steps i fun s =>
              { s with logIndex := r.logOffset + (r.logRows.length : Int) } }
        else r
      { r1 with steps := modifyStep r1.steps i fun s =>
          { s with result := sr, stoppedAt := some e.time } }
    | none => r
  | none => r

/-- The `stage == "Main"` branch of `Fire` with a located step (index `i`
in range): the three phases in source order. -/
def Reporter.fireStep (r : Reporter) (e : Entry) (i : Nat) : Reporter :=
  ((r.fireStepStart e i).fireStepRaw e i).fireStepResult e i

/-- `Reporter.Fire` (under the state lock).  Returns `none` exactly where the
Go code panics: a present integer `stepNumber` that is negative passes the
`len(r.state.Steps) > v` test and indexes `Steps[v]` out of range. -/
def Reporter.fire (r : Reporter) (e : Entry) : Option Reporter :=
  let r := if r.startedAt = none then { r with startedAt := some e.time } else r
  if e.stage ≠ some mainStage then
    some (r.fireSetupTeardown e)
  else
    match e.stepNumber with
    | some v =>
      if (r.steps.length : Int) > v then
        if v < 0 then none
        else some (r.fireStep e v.toNat)
      else some (r.fireNoStep e)
    | none => some (r.fireNoStep e)

/-- Deliver a sequence of entries to `Fire` in order. -/
def Reporter.fireAll (r : Reporter) (es : List Entry) : Option Reporter :=
  es.foldlM Reporter.fire r

/-! ### Reporter.logf, SetOutputs, Close, ReportLog -/

/-- `Reporter.logf` (caller holds the lock): append a synthetic row unless
inside the steps window.  `now` stands for `timestamppb.Now()` and `msg` for
the formatted text. -/
def Reporter.logf (r : Reporter) (now : Nat) (msg : List Char) : Reporter :=
  if r.duringSteps then r
  else { r with logRows := r.logRows ++ [⟨now, msg⟩] }

/-- Go `%q` of a key inside a synthetic message, modelled as plain quoting
without escapes (the claims do not depend on the message text). -/
def quoteGo (s : List Char) : List Char := '"' :: s ++ ['"']

def keyTooLongMsg (k : List Char) : List Char :=
  "ignore output because the key is too long: ".toList ++ quoteGo k

def valueTooLongMsg (k : List Char) (l : Nat) : List Char :=
  "ignore output because the value ".toList ++ quoteGo k ++
    " is too long: ".toList ++ (toString l).toList

/-- `Reporter.SetOutputs`, iterating the map entries in the given order (Go
map iteration order is unspecified; the claims are order-independent).
Faithfully to the source: an over-long key is skipped with a synthetic row;
an over-long value gets a synthetic row but is NOT skipped (there is no
`continue` in that branch); a key already present in the outputs map is left
unchanged. -/
def Reporter.setOutputs (r : Reporter) (now : Nat)
    (outs : List (List Char × List Char)) : Reporter :=
  outs.foldl (fun r kv =>
    if kv.1.length > 255 then
      r.logf now (keyTooLongMsg kv.1)
    else
      let r := if kv.2.length > 1024 * 1024 then
          r.logf now (valueTooLongMsg kv.1 kv.2.length)
        else r
      if (r.outputs.lookup kv.1).isSome then r
      else { r with outputs := r.outputs ++ [(kv.1, OutVal.str kv.2)] }) r

/-- The state mutation performed by `Reporter.Close(lastWords)` under the
state lock (the retried `ReportLog(true)` and `ReportState` RPCs that follow
are separate calls; `now` stands for the `timestamppb.Now()` reads). -/
def Reporter.close (r : Reporter) (lastWords : List Char) (now : Nat) : Reporter :=
  let r := { r with closed := true }
  if r.result = Result.unspecified then
    let lw := if lastWords = [] then "Early termination".toList else lastWords
    { r with
      steps := r.steps.map fun (v : StepState) =>
        if v.result = Result.unspecified then { v with result := Result.cancelled } else v
      result := Result.failure
      logRows := r.logRows ++ [⟨now, lw⟩]
      stoppedAt := some now }
  else if lastWords ≠ [] then
    { r with logRows := r.logRows ++ [⟨now, lastWords⟩] }
  else r

/-- Outcome of a `ReportLog` call. -/
inductive ReportLogRes where
  | ok
  | errRpc
  | errLost
  | errNotAll
  | panicked
deriving DecidableEq

/-- `Reporter.ReportLog(noMore)`.  `resp` is the coordinator response: `none`
for a transport error, `some ack` for a response with `AckIndex = ack`.
Faithful to the source: `rows` is the snapshot of the buffer sent in the
request; the `submitted logs are lost` check precedes any mutation; the
slice `r.logRows[ack-r.logOffset:]` panics when `ack - logOffset` exceeds
the buffer length; and the final `noMore` check reads `r.logOffset` AFTER it
has been advanced to `ack`. -/
def Reporter.reportLog (r : Reporter) (noMore : Bool) (resp : Option Int) :
    ReportLogRes × Reporter :=
  let rows := r.logRows
  match resp with
  | none => (ReportLogRes.errRpc, r)
  | some ack =>
    if ack < r.logOffset then (ReportLogRes.errLost, r)
    else if (rows.length : Int) < ack - r.logOffset then (ReportLogRes.panicked, r)
    else
      let r1 := { r with
        logRows := rows.drop (ack - r.logOffset).toNat
        logOffset := ack }
      if noMore ∧ ack < r1.logOffset + (rows.length : Int) then
        (ReportLogRes.errNotAll, r1)
      else (ReportLogRes.ok, r1)

/-! ### NewReporter -/

/-- The task fields `NewReporter` consumes: the context values `token` and
`gitea_runtime_token`, and the secrets map (as a list in iteration order; Go
map iteration order is unspecified, which only affects the order of the
seeded entries). -/
structure Task where
  id : Int
  contextToken : List Char := []
  contextRuntimeToken : List Char := []
  secrets : List (List Char × List Char) := []
deriving DecidableEq

/-- `NewReporter` (context, cancel hook and client are external).  The token
and runtime token are seeded only when non-empty; secret values are appended
unconditionally (the loop over `task.Secrets` has no emptiness check). -/
def NewReporter (task : Task) : Reporter :=
  { oldnew :=
      (if task.contextToken ≠ [] then [(task.contextToken, stars)] else []) ++
      (if task.contextRuntimeToken ≠ [] then [(task.contextRuntimeToken, stars)] else []) ++
      task.secrets.map fun kv => (kv.2, stars)
    taskId := task.id
    debugOutputEnabled :=
      task.secrets.lookup ("ACTIONS_STEP_DEBUG".toList) == some ("true".toList) }

/-- The seeded redaction table as claim C10 words it: the token value, the
gitea_runtime_token value and every secret value, each included only when
non-empty. -/
def specSeedMasks (task : Task) : List (List Char × List Char) :=
  (if task.contextToken ≠ [] then [(task.contextToken, stars)] else []) ++
  (if task.contextRuntimeToken ≠ [] then [(task.contextRuntimeToken, stars)] else []) ++
  (task.secrets.filter fun kv => !kv.2.isEmpty).map fun kv => (kv.2, stars)

/-! ### Poller shutdown (internal/app/poll/poller.go) -/

/-- Which branch of the `select` in `Poller.Shutdown` fires: the done channel
became ready (workers drained), or the shutdown timeout context fired
first. -/
inductive SelectBranch where
  | drained
  | timedOut
deriving DecidableEq

/-- Receiving from the poller done channel: `done` is a channel that `Poll`
closes once after the worker WaitGroup drains and that nothing ever sends
on, so whenever a receive completes, the comma-ok value is false (receive
from a closed channel yields the zero value and ok = false). -/
def doneRecvOk : Bool := false

/-- Observable effects of one `Poller.Shutdown` call. -/
structure ShutdownObs where
  pollingCancelled : Bool
  jobsCancelled : Bool
  returnsNil : Bool
deriving DecidableEq

/-- `Poller.Shutdown(ctx)` given which select branch fires.  In the timeout
branch the code runs `_, ok := <-p.done` — a blocking receive that completes
only when the done channel is closed (the model assumes the workers
eventually drain) — and returns nil when `!ok`; the `shutdownJobs` tail is
reachable only if `ok` were true. -/
def pollerShutdown (branch : SelectBranch) : ShutdownObs :=
  match branch with
  | SelectBranch.drained =>
    { pollingCancelled := true, jobsCancelled := false, returnsNil := true }
  | SelectBranch.timedOut =>
    if doneRecvOk = false then
      { pollingCancelled := true, jobsCancelled := false, returnsNil := true }
    else
      { pollingCancelled := true, jobsCancelled := true, returnsNil := false }

/-! ### Runner.Run (internal/app/run/runner.go) -/

/-- Outcome of the executor invocation inside `Runner.run` (workflow parsing,
planning and the container executor are external collaborators): it returns
normally, returns an error, or panics. -/
inductive ExecOutcome where
  | ok
  | fail (msg : List Char)
  | panicked (msg : List Char)
deriving DecidableEq

/-- The error `Runner.run` returns to `Run` (the deferred recover converts a
panic into `panic: msg`). -/
def runInnerErr (exec : ExecOutcome) : Option (List Char) :=
  match exec with
  | ExecOutcome.ok => none
  | ExecOutcome.fail m => some m
  | ExecOutcome.panicked m => some ("panic: ".toList ++ m)

def duplicateTaskErr (id : Int) : List Char :=
  "task ".toList ++ (toString id).toList ++ " is already running".toList

/-- Observable behavior of one `Runner.Run(ctx, task)` call: the error value
Run returns (`none` is nil) and the lastWords passed to `reporter.Close`
when the deferred close runs. -/
structure RunObs where
  returned : Option (List Char)
  closeLastWords : Option (List Char)
deriving DecidableEq

/-- `Runner.Run`: reject a duplicate task id before any other effect;
otherwise always return nil, routing the execution error (if any) into
`reporter.Close(lastWords)` via the deferred close. -/
def runnerRun (runningTasks : List Int) (taskId : Int) (exec : ExecOutcome) :
    RunObs :=
  if taskId ∈ runningTasks then
    { returned := some (duplicateTaskErr taskId), closeLastWords := none }
  else
    { returned := none
      closeLastWords := some (match runInnerErr exec with | some m => m | none => []) }

/-! ### Claim theorems -/

def c1Reporter : Reporter := { logOffset := 0, logRows := [⟨0, ['a']⟩] }

def c7BigValue : List Char := List.replicate (1024 * 1024 + 1) 'a'

/-- The built-in command names of the `handleCommand` switch. -/
def builtinCmds : List (List Char) :=
  [addMaskCmd, debugCmd, noticeCmd, warningCmd, errorCmd, groupCmd,
    endgroupCmd, stopCommandsCmd]

def c10Task : Task := { id := 1, secrets := [("S".toList, [])] }

def c10WTask : Task :=
  { id := 0, contextToken := "tok".toList, secrets := [("S".toList, "sec".toList)] }

/-- Relation between step vectors: same length, and result, stop time and
start time of every step are preserved. -/
def StepsPreserve (l l' : List StepState) : Prop :=
  l'.length = l.length ∧
  ∀ (j : Nat) (st st' : StepState), l[j]? = some st → l'[j]? = some st' →
    st'.result = st.result ∧ st'.stoppedAt = st.stoppedAt ∧
    st'.startedAt = st.startedAt

/-- The condition under which a Fire entry writes the task result and task
stop time: the non-Main branch with a parseable jobResult. -/
def writesTaskResult (e : Entry) : Prop :=
  e.stage ≠ some mainStage ∧ (e.jobResult.bind parseResult).isSome = true

instance (e : Entry) : Decidable (writesTaskResult e) := by
  unfold writesTaskResult
  infer_instance

/-- The condition under which a Fire entry writes step i's result and stop
time directly: the Main branch with step i selected (i in range of the n
steps) and a parseable stepResult. -/
def writesStepResult (e : Entry) (i : Nat) (n : Nat) : Prop :=
  e.stage = some mainStage ∧ e.stepNumber = some (i : Int) ∧ i < n ∧
  (e.stepResult.bind parseResult).isSome = true

instance (e : Entry) (i n : Nat) : Decidable (writesStepResult e i n) := by
  unfold writesStepResult
  infer_instance

def c4Entry1 : Entry := { time := 0, message := [], jobResult := some ("success".toList) }

def c4Entry2 : Entry := { time := 1, message := [], jobResult := some ("failure".toList) }

def c4WReporter : Reporter :=
  { startedAt := some 4,
    steps := [{ id := 0, startedAt := some 5, result := Result.success }] }

def c4WEntry : Entry :=
  { time := 9, message := ['z'], stage := some mainStage, stepNumber := some 0,
    rawOutput := some true }

def c4WResult : Reporter :=
  { startedAt := some 4,
    logRows := [⟨9, ['z']⟩],
    steps := [{ id := 0, startedAt := some 5, result := Result.success,
                logIndex := 0, logLength := 1 }] }

/-! ### Theorems -/

theorem goMatch_some {ie : Bool} {table : List (List Char × List Char)}
    {s : List Char} {p : List Char × List Char} (h : goMatch ie table s = some p) :
    p.1 <+: s ∧ (ie = true → p.1 ≠ []) := by
  have hp := List.find?_some h
  simp only [Bool.and_eq_true, Bool.or_eq_true, Bool.not_eq_true',
    List.isPrefixOf_iff_prefix] at hp
  refine ⟨hp.2, fun hie => ?_⟩
  subst hie
  rcases hp.1 with h' | h'
  · simp at h'
  · simpa using h'

theorem goMatch_mem {ie : Bool} {table : List (List Char × List Char)}
    {s : List Char} {p : List Char × List Char} (h : goMatch ie table s = some p) :
    p ∈ table :=
  List.mem_of_find?_eq_some h

theorem goReplaceAux_eq_some_true {table : List (List Char × List Char)}
    {c : Char} {rest : List Char} {p : List Char × List Char}
    (hm : goMatch true table (c :: rest) = some p) :
    goReplaceAux table true (c :: rest) =
      p.2 ++ goReplaceAux table false ((c :: rest).drop p.1.length) := by
  conv_lhs => rw [goReplaceAux]
  split
  next p' heq => rw [hm] at heq; cases heq; rfl
  next heq => rw [hm] at heq; cases heq

theorem goReplaceAux_eq_none_true {table : List (List Char × List Char)}
    {c : Char} {rest : List Char}
    (hm : goMatch true table (c :: rest) = none) :
    goReplaceAux table true (c :: rest) = c :: goReplaceAux table false rest := by
  conv_lhs => rw [goReplaceAux]
  split
  next p' heq => rw [hm] at heq; cases heq
  next heq => rfl

theorem goReplaceAux_eq_some_false {table : List (List Char × List Char)}
    {c : Char} {rest : List Char} {p : List Char × List Char}
    (hm : goMatch false table (c :: rest) = some p) (hne : ¬ p.1 = []) :
    goReplaceAux table false (c :: rest) =
      p.2 ++ goReplaceAux table false ((c :: rest).drop p.1.length) := by
  conv_lhs => rw [goReplaceAux]
  split
  next p' heq =>
    rw [hm] at heq; cases heq
    rw [dif_neg hne]
  next heq => rw [hm] at heq; cases heq

theorem goReplaceAux_eq_some_false_emp {table : List (List Char × List Char)}
    {c : Char} {rest : List Char} {p : List Char × List Char}
    (hm : goMatch false table (c :: rest) = some p) (hemp : p.1 = []) :
    goReplaceAux table false (c :: rest) =
      p.2 ++ goReplaceAux table true (c :: rest) := by
  conv_lhs => rw [goReplaceAux]
  split
  next p' heq =>
    rw [hm] at heq; cases heq
    rw [dif_pos hemp]
  next heq => rw [hm] at heq; cases heq

theorem goReplaceAux_eq_none_false {table : List (List Char × List Char)}
    {c : Char} {rest : List Char}
    (hm : goMatch false table (c :: rest) = none) :
    goReplaceAux table false (c :: rest) = c :: goReplaceAux table false rest := by
  conv_lhs => rw [goReplaceAux]
  split
  next p' heq => rw [hm] at heq; cases heq
  next heq => rfl

theorem goReplaceFuel_eq (table : List (List Char × List Char)) :
    ∀ (fuel : Nat) (b : Bool) (s : List Char),
      2 * s.length + cond b 0 1 ≤ fuel →
      goReplaceFuel table fuel b s = goReplaceAux table b s := by
  intro fuel
  induction fuel with
  | zero =>
    intro b s h
    cases b with
    | false => simp at h
    | true =>
      cases s with
      | nil =>
        conv_rhs => rw [goReplaceAux]
        rfl
      | cons c rest => simp at h
  | succ fuel ih =>
    intro b s h
    cases s with
    | nil =>
      cases b with
      | true =>
        conv_rhs => rw [goReplaceAux]
        rfl
      | false =>
        conv_rhs => rw [goReplaceAux]
        rfl
    | cons c rest =>
      cases b with
      | true =>
        simp only [List.length_cons, Bool.cond_true] at h
        cases hm : goMatch true table (c :: rest) with
        | some p =>
          have hk := (goMatch_some hm).1.length_le
          have hne : p.1 ≠ [] := (goMatch_some hm).2 rfl
          have hk1 : 1 ≤ p.1.length := List.length_pos.mpr hne
          rw [goReplaceAux_eq_some_true hm]
          simp only [goReplaceFuel, hm]
          rw [ih false ((c :: rest).drop p.1.length) (by
            simp only [List.length_drop, List.length_cons, Bool.cond_false]
            simp only [List.length_cons] at hk
            omega)]
        | none =>
          rw [goReplaceAux_eq_none_true hm]
          simp only [goReplaceFuel, hm]
          rw [ih false rest (by simp only [Bool.cond_false]; omega)]
      | false =>
        simp only [List.length_cons, Bool.cond_false] at h
        cases hm : goMatch false table (c :: rest) with
        | some p =>
          by_cases hemp : p.1 = []
          · rw [goReplaceAux_eq_some_false_emp hm hemp]
            simp only [goReplaceFuel, hm, if_pos hemp]
            rw [ih true (c :: rest) (by
              simp only [List.length_cons, Bool.cond_true]
              omega)]
          · have hk := (goMatch_some hm).1.length_le
            have hk1 : 1 ≤ p.1.length := List.length_pos.mpr hemp
            rw [goReplaceAux_eq_some_false hm hemp]
            simp only [goReplaceFuel, hm, if_neg hemp]
            rw [ih false ((c :: rest).drop p.1.length) (by
              simp only [List.length_drop, List.length_cons, Bool.cond_false]
              simp only [List.length_cons] at hk
              omega)]
        | none =>
          rw [goReplaceAux_eq_none_false hm]
          simp only [goReplaceFuel, hm]
          rw [ih false rest (by simp only [Bool.cond_false]; omega)]

theorem goReplace_eq_aux (table : List (List Char × List Char)) (s : List Char) :
    goReplace table s = goReplaceAux table false s :=
  goReplaceFuel_eq table (2 * s.length + 1) false s (by
    simp only [Bool.cond_false]
    omega)

theorem infix_cons_elim {v : List Char} {c : Char} {t : List Char}
    (h : v <:+: c :: t) (hne : v ≠ []) (hc : c ∉ v) : v <:+: t := by
  rcases List.infix_cons_iff.mp h with h' | h'
  · cases v with
    | nil => exact absurd rfl hne
    | cons a v' =>
      obtain ⟨hac, -⟩ := List.cons_prefix_cons.mp h'
      subst hac
      exact absurd (List.mem_cons_self _ _) hc
  · exact h'

/-- Anything that is a prefix of the replacer output and avoids the character
star is a prefix of the input (replacements only ever emit stars). -/
theorem goReplaceAux_prefix (table : List (List Char × List Char))
    (hR : ∀ p ∈ table, p.2 = stars) :
    ∀ (b : Bool) (s : List Char), ∀ v : List Char, '*' ∉ v →
      v <+: goReplaceAux table b s → v <+: s := by
  intro b s
  induction b, s using goReplaceAux.induct table with
  | case1 =>
    intro v _ h
    simpa [goReplaceAux] using h
  | case2 p hfind =>
    intro v hv h
    simp only [goReplaceAux, hfind] at h
    rw [hR p (List.mem_of_find?_eq_some hfind)] at h
    cases v with
    | nil => exact List.nil_prefix
    | cons a v' =>
      obtain ⟨hac, -⟩ := List.cons_prefix_cons.mp (by simpa [stars] using h)
      exact absurd (hac ▸ List.mem_cons_self a v') hv
  | case3 hfind =>
    intro v _ h
    simpa [goReplaceAux, hfind] using h
  | case4 c rest p hmatch ih =>
    intro v hv h
    rw [goReplaceAux_eq_some_true hmatch] at h
    rw [hR p (goMatch_mem hmatch)] at h
    cases v with
    | nil => exact List.nil_prefix
    | cons a v' =>
      obtain ⟨hac, -⟩ := List.cons_prefix_cons.mp (by simpa [stars] using h)
      exact absurd (hac ▸ List.mem_cons_self a v') hv
  | case5 c rest hmatch ih =>
    intro v hv h
    rw [goReplaceAux_eq_none_true hmatch] at h
    cases v with
    | nil => exact List.nil_prefix
    | cons a v' =>
      obtain ⟨hac, hpre⟩ := List.cons_prefix_cons.mp h
      have hv' : '*' ∉ v' := fun hm => hv (List.mem_cons_of_mem _ hm)
      exact List.cons_prefix_cons.mpr ⟨hac, ih v' hv' hpre⟩
  | case6 c rest p hmatch hemp ih =>
    intro v hv h
    rw [goReplaceAux_eq_some_false_emp hmatch hemp] at h
    rw [hR p (goMatch_mem hmatch)] at h
    cases v with
    | nil => exact List.nil_prefix
    | cons a v' =>
      obtain ⟨hac, -⟩ := List.cons_prefix_cons.mp (by simpa [stars] using h)
      exact absurd (hac ▸ List.mem_cons_self a v') hv
  | case7 c rest p hmatch hemp ih =>
    intro v hv h
    rw [goReplaceAux_eq_some_false hmatch hemp] at h
    rw [hR p (goMatch_mem hmatch)] at h
    cases v with
    | nil => exact List.nil_prefix
    | cons a v' =>
      obtain ⟨hac, -⟩ := List.cons_prefix_cons.mp (by simpa [stars] using h)
      exact absurd (hac ▸ List.mem_cons_self a v') hv
  | case8 c rest hmatch ih =>
    intro v hv h
    rw [goReplaceAux_eq_none_false hmatch] at h
    cases v with
    | nil => exact List.nil_prefix
    | cons a v' =>
      obtain ⟨hac, hpre⟩ := List.cons_prefix_cons.mp h
      have hv' : '*' ∉ v' := fun hm => hv (List.mem_cons_of_mem _ hm)
      exact List.cons_prefix_cons.mpr ⟨hac, ih v' hv' hpre⟩

theorem infix_stars_append_elim {v : List Char} {t : List Char}
    (hne : v ≠ []) (hstar : '*' ∉ v) (h : v <:+: stars ++ t) : v <:+: t := by
  have h1 : v <:+: '*' :: ('*' :: ('*' :: t)) := by simpa [stars] using h
  have hs : '*' ∉ v := hstar
  exact infix_cons_elim (infix_cons_elim (infix_cons_elim h1 hne hs) hne hs) hne hs

/-- No pattern of the redaction table occurs in the replacer output, provided
every pattern is nonempty and star-free (all replacements being stars). -/
theorem goReplaceAux_no_pattern (table : List (List Char × List Char))
    (hR : ∀ p ∈ table, p.2 = stars) (hNE : ∀ p ∈ table, p.1 ≠ [])
    (hStar : ∀ p ∈ table, '*' ∉ p.1) :
    ∀ (b : Bool) (s : List Char), ∀ q ∈ table,
      ¬ q.1 <:+: goReplaceAux table b s := by
  intro b s
  induction b, s using goReplaceAux.induct table with
  | case1 =>
    intro q hq h
    rw [goReplaceAux] at h
    exact hNE q hq (List.infix_nil.mp h)
  | case2 p hfind =>
    intro q hq h
    have hp := List.find?_some hfind
    exact hNE p (List.mem_of_find?_eq_some hfind) (by simpa using hp)
  | case3 hfind =>
    intro q hq h
    simp only [goReplaceAux, hfind] at h
    exact hNE q hq (List.infix_nil.mp h)
  | case4 c rest p hmatch ih =>
    intro q hq h
    rw [goReplaceAux_eq_some_true hmatch] at h
    rw [hR p (goMatch_mem hmatch)] at h
    exact ih q hq (infix_stars_append_elim (hNE q hq) (hStar q hq) h)
  | case5 c rest hmatch ih =>
    intro q hq h
    rw [goReplaceAux_eq_none_true hmatch] at h
    rcases List.infix_cons_iff.mp h with hpre | hinf
    · cases hq1 : q.1 with
      | nil => exact hNE q hq hq1
      | cons a v' =>
        rw [hq1] at hpre
        obtain ⟨hac, hpre'⟩ := List.cons_prefix_cons.mp hpre
        have hv' : '*' ∉ v' := fun hm => hStar q hq (hq1 ▸ List.mem_cons_of_mem _ hm)
        have hrest : v' <+: rest := goReplaceAux_prefix table hR false rest v' hv' hpre'
        have hqpre : q.1 <+: c :: rest := by
          rw [hq1]; exact List.cons_prefix_cons.mpr ⟨hac, hrest⟩
        have hnone := List.find?_eq_none.mp hmatch q hq
        simp only [Bool.and_eq_true, Bool.or_eq_true, Bool.not_eq_true',
          List.isPrefixOf_iff_prefix, not_and, Bool.not_eq_true] at hnone
        have hemp : q.1.isEmpty = false := by
          cases hq2 : q.1 with
          | nil => exact absurd hq2 (hNE q hq)
          | cons x xs => simp
        exact hnone (Or.inr hemp) hqpre
    · exact ih q hq hinf
  | case6 c rest p hmatch hemp ih =>
    intro q hq _
    exact absurd hemp (hNE p (goMatch_mem hmatch))
  | case7 c rest p hmatch hemp ih =>
    intro q hq h
    rw [goReplaceAux_eq_some_false hmatch hemp] at h
    rw [hR p (goMatch_mem hmatch)] at h
    exact ih q hq (infix_stars_append_elim (hNE q hq) (hStar q hq) h)
  | case8 c rest hmatch ih =>
    intro q hq h
    rw [goReplaceAux_eq_none_false hmatch] at h
    rcases List.infix_cons_iff.mp h with hpre | hinf
    · cases hq1 : q.1 with
      | nil => exact hNE q hq hq1
      | cons a v' =>
        rw [hq1] at hpre
        obtain ⟨hac, hpre'⟩ := List.cons_prefix_cons.mp hpre
        have hv' : '*' ∉ v' := fun hm => hStar q hq (hq1 ▸ List.mem_cons_of_mem _ hm)
        have hrest : v' <+: rest := goReplaceAux_prefix table hR false rest v' hv' hpre'
        have hqpre : q.1 <+: c :: rest := by
          rw [hq1]; exact List.cons_prefix_cons.mpr ⟨hac, hrest⟩
        have hnone := List.find?_eq_none.mp hmatch q hq
        simp only [Bool.and_eq_true, Bool.or_eq_true, Bool.not_eq_true',
          List.isPrefixOf_iff_prefix, not_and, Bool.not_eq_true] at hnone
        exact hnone (Or.inl trivial) hqpre
    · exact ih q hq hinf

/-- If no pattern of the table occurs in `s` (all patterns nonempty), the
replacer leaves `s` unchanged. -/
theorem goReplaceAux_id (table : List (List Char × List Char))
    (hNE : ∀ p ∈ table, p.1 ≠ []) :
    ∀ (b : Bool) (s : List Char), (∀ p ∈ table, ¬ p.1 <:+: s) →
      goReplaceAux table b s = s := by
  intro b s
  induction b, s using goReplaceAux.induct table with
  | case1 => intro _; rw [goReplaceAux]
  | case2 p hfind =>
    intro _
    have hp := List.find?_some hfind
    exact absurd (by simpa using hp) (hNE p (List.mem_of_find?_eq_some hfind))
  | case3 hfind => intro _; simp [goReplaceAux, hfind]
  | case4 c rest p hmatch ih =>
    intro hs
    have hpre := (goMatch_some hmatch).1
    exact absurd ( List.IsPrefix.isInfix hpre) (hs p (goMatch_mem hmatch))
  | case5 c rest hmatch ih =>
    intro hs
    rw [goReplaceAux_eq_none_true hmatch]
    rw [ih fun p hp hinf => hs p hp (List.infix_cons hinf)]
  | case6 c rest p hmatch hemp ih =>
    intro _
    exact absurd hemp (hNE p (goMatch_mem hmatch))
  | case7 c rest p hmatch hemp ih =>
    intro hs
    have hpre := (goMatch_some hmatch).1
    exact absurd ( List.IsPrefix.isInfix hpre) (hs p (goMatch_mem hmatch))
  | case8 c rest hmatch ih =>
    intro hs
    rw [goReplaceAux_eq_none_false hmatch]
    rw [ih fun p hp hinf => hs p hp (List.infix_cons hinf)]

/-- Transfer of `goReplaceAux_no_pattern` to `goReplace`. -/
theorem goReplace_no_pattern (table : List (List Char × List Char))
    (hR : ∀ p ∈ table, p.2 = stars) (hNE : ∀ p ∈ table, p.1 ≠ [])
    (hStar : ∀ p ∈ table, '*' ∉ p.1) (s : List Char) :
    ∀ q ∈ table, ¬ q.1 <:+: goReplace table s := by
  rw [goReplace_eq_aux]
  exact goReplaceAux_no_pattern table hR hNE hStar false s

/-- Transfer of `goReplaceAux_id` to `goReplace`. -/
theorem goReplace_id (table : List (List Char × List Char))
    (hNE : ∀ p ∈ table, p.1 ≠ []) (s : List Char)
    (hs : ∀ p ∈ table, ¬ p.1 <:+: s) : goReplace table s = s := by
  rw [goReplace_eq_aux]
  exact goReplaceAux_id table hNE false s hs

/-- The empty redaction table never changes a row. -/
theorem goReplace_nil (s : List Char) : goReplace [] s = s :=
  goReplace_id [] (by simp) s (by simp)

/-- When `handleCommand` returns a content to emit, it did not change the
reporter state (only `add-mask`, `stop-commands` and the stop-token case
mutate, and those all drop the line). -/
theorem Reporter.handleCommand_some {r : Reporter}
    {o c p v out : List Char}
    (h : (r.handleCommand o c p v).1 = some out) :
    (r.handleCommand o c p v).2 = r := by
  unfold Reporter.handleCommand at h ⊢
  split_ifs at h ⊢ <;> first | rfl | simp at h

/-- C1: the claim states that `ReportLog(noMore=true)` returns nil exactly
when `ack_index` equals the pre-call `log_offset` plus the number of rows
sent.  On the code this fails: the final check `ack < r.logOffset+len(rows)`
reads `r.logOffset` after it has already been advanced to `ack`, so a final
flush whose snapshot was nonempty returns `not all logs are submitted` even
when `ack_index = log_offset + len(rows)` (here offset 0, one row, ack 1).
The `ack_index < log_offset` case does fail with `submitted logs are lost`
leaving offset and buffer unchanged, as claimed. -/
theorem c1_reportLog_final_ack_check :
    (c1Reporter.reportLog true (some 1)).1 = ReportLogRes.errNotAll ∧
    (c1Reporter.reportLog true (some 1)).2.logOffset = 1 ∧
    (c1Reporter.reportLog true (some 1)).2.logRows = [] ∧
    c1Reporter.reportLog true (some (-1)) = (ReportLogRes.errLost, c1Reporter) := by
  refine ⟨?_, ?_, ?_, ?_⟩ <;> decide

/-- C2: the claim states that when the grace timeout fires first, Shutdown
performs a non-blocking receive on the done channel, cancels the jobs
context, waits, and returns the timeout error.  On the code the receive
`_, ok := <-p.done` is blocking, and since the done channel is only ever
closed (never sent on), `ok` is always false when it completes, so Shutdown
returns nil and never cancels the jobs context in either select branch; the
polling context is cancelled, and a clean drain returns nil, as claimed. -/
theorem c2_shutdown_never_cancels_jobs :
    ∀ b : SelectBranch, (pollerShutdown b).pollingCancelled = true ∧
      (pollerShutdown b).jobsCancelled = false ∧
      (pollerShutdown b).returnsNil = true := by
  intro b
  cases b <;> exact ⟨rfl, rfl, rfl⟩

/-- C3: `Close(lastWords)` on a reporter whose result is Unspecified sets the
result to Failure, turns every Unspecified step result into Cancelled
(leaving the others unchanged), sets the task stop time, and appends exactly
one synthetic final row whose content is lastWords, defaulting to
`Early termination` when lastWords is empty; on a reporter whose result is
already terminal and with nonempty lastWords, only a closing row with
lastWords is appended and result, steps and stop time are unchanged. -/
theorem c3_close_semantics (r : Reporter) (lastWords : List Char) (now : Nat) :
    (r.result = Result.unspecified →
      (r.close lastWords now).result = Result.failure ∧
      (r.close lastWords now).stoppedAt = some now ∧
      (r.close lastWords now).steps = (r.steps.map fun (s : StepState) =>
        if s.result = Result.unspecified then { s with result := Result.cancelled }
        else s) ∧
      (r.close lastWords now).logRows = r.logRows ++
        [⟨now, if lastWords = [] then "Early termination".toList else lastWords⟩]) ∧
    (r.result ≠ Result.unspecified → lastWords ≠ [] →
      (r.close lastWords now).logRows = r.logRows ++ [⟨now, lastWords⟩] ∧
      (r.close lastWords now).result = r.result ∧
      (r.close lastWords now).steps = r.steps ∧
      (r.close lastWords now).stoppedAt = r.stoppedAt) := by
  constructor
  · intro h
    simp [Reporter.close, h]
  · intro h hw
    simp [Reporter.close, h, hw]

theorem c3_close_semantics_witness :
    (({ } : Reporter).close [] 5).result = Result.failure ∧
    (({ } : Reporter).close [] 5).logRows = [⟨5, "Early termination".toList⟩] ∧
    (({ result := Result.success } : Reporter).close ['x'] 7).logRows =
      [⟨7, ['x']⟩] := by
  refine ⟨((c3_close_semantics { } [] 5).1 rfl).1, ?_, ?_⟩
  · have h := ((c3_close_semantics { } [] 5).1 rfl).2.2.2
    simpa using h
  · have h := ((c3_close_semantics { result := Result.success } ['x'] 7).2
      (by decide) (by decide)).1
    simpa using h

/-- Behaviour of `SetOutputs` on a single fresh key whose value exceeds the
1 MiB limit: the synthetic row is appended AND the value is stored (the Go
branch has no `continue`). -/
theorem setOutputs_single_long_value (r : Reporter) (now : Nat)
    (k v : List Char) (hk : ¬ k.length > 255) (hv : v.length > 1024 * 1024)
    (hfresh : (r.outputs.lookup k).isSome = false)
    (hds : r.duringSteps = false) :
    (r.setOutputs now [(k, v)]).outputs = r.outputs ++ [(k, OutVal.str v)] ∧
    (r.setOutputs now [(k, v)]).logRows =
      r.logRows ++ [⟨now, valueTooLongMsg k v.length⟩] := by
  constructor <;>
    simp [Reporter.setOutputs, Reporter.logf, hk, hv, hfresh, hds]

/-- C7: the claim states a value longer than 1 MiB is not stored and only a
synthetic log line is appended.  On the code the over-long-value branch has
no `continue`: it appends the synthetic `ignore output ...` row and then
stores the value anyway (key `k` fresh, value of length 1 MiB + 1).  (The
over-long-key branch does skip, and present keys are never overwritten, as
claimed.) -/
theorem c7_setOutputs_long_value_stored :
    (Reporter.setOutputs { } 0 [(['k'], c7BigValue)]).outputs =
      [(['k'], OutVal.str c7BigValue)] ∧
    (Reporter.setOutputs { } 0 [(['k'], c7BigValue)]).logRows =
      [⟨0, valueTooLongMsg ['k'] (1024 * 1024 + 1)⟩] := by
  have hlen : c7BigValue.length = 1024 * 1024 + 1 := by
    rw [c7BigValue, List.length_replicate]
  have h := setOutputs_single_long_value { } 0 ['k'] c7BigValue
    (by norm_num) (by rw [hlen]; norm_num) rfl rfl
  rw [hlen] at h
  simpa using h

/-- C8: `Runner.Run` returns the duplicate-task error when the task id is in
the live-tasks set (and does not reach the reporter); otherwise it returns
nil whether the execution succeeded, failed or panicked, and the execution
error reaches the coordinator only as the lastWords passed to
`reporter.Close` (a panic is converted to a `panic:`-prefixed message by
the recover inside `Runner.run`). -/
theorem c8_runner_run (running : List Int) (id : Int) (exec : ExecOutcome) :
    (id ∈ running →
      runnerRun running id exec =
        { returned := some (duplicateTaskErr id), closeLastWords := none }) ∧
    (id ∉ running →
      (runnerRun running id exec).returned = none ∧
      ((exec = ExecOutcome.ok →
          (runnerRun running id exec).closeLastWords = some []) ∧
        (∀ m, exec = ExecOutcome.fail m →
          (runnerRun running id exec).closeLastWords = some m) ∧
        (∀ m, exec = ExecOutcome.panicked m →
          (runnerRun running id exec).closeLastWords =
            some ("panic: ".toList ++ m)))) := by
  constructor
  · intro h
    simp [runnerRun, h]
  · intro h
    refine ⟨by simp [runnerRun, h], ?_, ?_, ?_⟩
    · intro he; subst he; simp [runnerRun, h, runInnerErr]
    · intro m he; subst he; simp [runnerRun, h, runInnerErr]
    · intro m he; subst he; simp [runnerRun, h, runInnerErr]

theorem c8_runner_run_witness :
    runnerRun [5] 5 ExecOutcome.ok =
      { returned := some (duplicateTaskErr 5), closeLastWords := none } ∧
    (runnerRun [] 7 (ExecOutcome.fail ['e'])).returned = none ∧
    (runnerRun [] 7 (ExecOutcome.fail ['e'])).closeLastWords = some ['e'] := by
  refine ⟨(c8_runner_run [5] 5 ExecOutcome.ok).1 (by decide), ?_, ?_⟩
  · exact ((c8_runner_run [] 7 (ExecOutcome.fail ['e'])).2 (by decide)).1
  · exact (((c8_runner_run [] 7 (ExecOutcome.fail ['e'])).2
      (by decide)).2.2.1 ['e'] rfl)

/-! ### Helper lemmas about parseLogRow and Fire -/

/-- Equation for `parseLogRow` on a command line. -/
theorem Reporter.parseLogRow_cmd (r : Reporter) (e : Entry)
    (cmd params value : List Char)
    (h : matchCmd (trimRightCRLF e.message) = some (cmd, params, value)) :
    r.parseLogRow e =
      match r.handleCommand (trimRightCRLF e.message) cmd params value with
      | (some c, r') => (some ⟨e.time, goReplace r'.oldnew c⟩, r')
      | (none, r') => (none, r') := by
  unfold Reporter.parseLogRow
  rw [h]

/-- Equation for `parseLogRow` on a plain (non-command) line. -/
theorem Reporter.parseLogRow_plain (r : Reporter) (e : Entry)
    (h : matchCmd (trimRightCRLF e.message) = none) :
    r.parseLogRow e =
      (some ⟨e.time, goReplace r.oldnew (trimRightCRLF e.message)⟩, r) := by
  unfold Reporter.parseLogRow
  rw [h]

/-- `handleCommand` only ever touches `oldnew` and the stop token. -/
theorem Reporter.handleCommand_preserves (r : Reporter) (o c p v : List Char) :
    (r.handleCommand o c p v).2.result = r.result ∧
    (r.handleCommand o c p v).2.steps = r.steps ∧
    (r.handleCommand o c p v).2.stoppedAt = r.stoppedAt ∧
    (r.handleCommand o c p v).2.startedAt = r.startedAt ∧
    (r.handleCommand o c p v).2.logRows = r.logRows ∧
    (r.handleCommand o c p v).2.logOffset = r.logOffset := by
  unfold Reporter.handleCommand
  split_ifs <;> simp [Reporter.addMask]

/-- `parseLogRow` only ever touches `oldnew` and the stop token. -/
theorem Reporter.parseLogRow_preserves (r : Reporter) (e : Entry) :
    (r.parseLogRow e).2.result = r.result ∧
    (r.parseLogRow e).2.steps = r.steps ∧
    (r.parseLogRow e).2.stoppedAt = r.stoppedAt ∧
    (r.parseLogRow e).2.startedAt = r.startedAt ∧
    (r.parseLogRow e).2.logRows = r.logRows ∧
    (r.parseLogRow e).2.logOffset = r.logOffset := by
  unfold Reporter.parseLogRow
  split
  next cmd params value heq =>
    split
    next c r2 heq2 =>
      have := Reporter.handleCommand_preserves r (trimRightCRLF e.message) cmd params value
      rw [heq2] at this
      exact this
    next r2 heq2 =>
      have := Reporter.handleCommand_preserves r (trimRightCRLF e.message) cmd params value
      rw [heq2] at this
      exact this
  next heq => exact ⟨rfl, rfl, rfl, rfl, rfl, rfl⟩

/-- Every row `parseLogRow` emits is the replacer applied to some string, and
the emitting call left the redaction table unchanged. -/
theorem Reporter.parseLogRow_row_content (r : Reporter) (e : Entry)
    (row : LogRow) (r' : Reporter) (h : r.parseLogRow e = (some row, r')) :
    r' = r ∧ ∃ s, row.content = goReplace r.oldnew s := by
  unfold Reporter.parseLogRow at h
  split at h
  next cmd params value heq =>
    split at h
    next c r2 heq2 =>
      injection h with h1 h2
      injection h1 with h1
      have hr2 : r2 = r := by
        have hsome : (r.handleCommand (trimRightCRLF e.message) cmd params value).1
            = some c := by rw [heq2]
        have h3 := Reporter.handleCommand_some hsome
        rw [heq2] at h3
        exact h3
      constructor
      · rw [← h2, hr2]
      · exact ⟨c, by rw [← h1, hr2]⟩
    next r2 heq2 => cases h
  next heq =>
    cases h
    exact ⟨rfl, trimRightCRLF e.message, rfl⟩

/-- Trailing-CR/LF trimming fixes a string whose last character is neither
CR nor LF. -/
theorem trim_append_no_crlf (l v : List Char) (hv : v ≠ [])
    (hnl : '\n' ∉ v) (hcr : '\r' ∉ v) :
    trimRightCRLF (l ++ v) = l ++ v := by
  unfold trimRightCRLF
  rw [List.reverse_append]
  cases hvr : v.reverse with
  | nil => exact absurd (by simpa using congrArg List.reverse hvr) hv
  | cons c vs =>
    have hc : c ∈ v := by
      have : c ∈ v.reverse := by rw [hvr]; exact List.mem_cons_self _ _
      simpa using this
    have h1 : c ≠ '\r' := fun h => hcr (h ▸ hc)
    have h2 : c ≠ '\n' := fun h => hnl (h ▸ hc)
    rw [List.cons_append, List.dropWhile_cons, if_neg (by simp [h1, h2])]
    rw [← List.cons_append, ← hvr, ← List.reverse_append, List.reverse_reverse]

/-- `matchCmd` on an add-mask line with an arbitrary newline-free value. -/
theorem matchCmd_add_mask (v : List Char) (hnl : '\n' ∉ v) :
    matchCmd ("::add-mask::".toList ++ v) = some (addMaskCmd, [], v) := by
  have h0 : ("::add-mask::".toList ++ v)
      = ':' :: ':' :: ('a' :: 'd' :: 'd' :: '-' :: 'm' :: 'a' :: 's' :: 'k'
        :: ':' :: ':' :: v) := rfl
  have hnl2 : hasNl v = false := by
    simp only [hasNl, List.any_eq_false]
    exact fun c hc h => hnl ((beq_iff_eq.mp h) ▸ hc)
  rw [h0]
  simp [matchCmd, List.takeWhile_cons, isCmdChar, hnl2]
  rfl

/-- C5 counterexample: the claim says the first line whose command name
equals the stop token clears the token and produces no row.  With stop token
`debug` (a built-in name), `::debug::x` produces no row but does NOT clear
the token — the built-in `debug` switch case matches first — so the
following `::add-mask::y` is still emitted as plain text instead of being
interpreted. -/
theorem c5_counterexample :
    Reporter.parseLogRow { }
        { time := 0, message := "::stop-commands::debug".toList } =
      (none, { stopCommandEndToken := "debug".toList }) ∧
    Reporter.parseLogRow { stopCommandEndToken := "debug".toList }
        { time := 1, message := "::debug::x".toList } =
      (none, { stopCommandEndToken := "debug".toList }) ∧
    (Reporter.parseLogRow { stopCommandEndToken := "debug".toList }
        { time := 2, message := "::add-mask::y".toList }).1 =
      some ⟨2, "::add-mask::y".toList⟩ ∧
    (Reporter.parseLogRow { stopCommandEndToken := "debug".toList }
        { time := 2, message := "::add-mask::y".toList }).2 =
      { stopCommandEndToken := "debug".toList } := by
  refine ⟨?_, ?_, ?_, ?_⟩ <;> decide

/-- C5 amended: after a `::stop-commands::s` line is processed with no stop
scope active (the line produces no row and records s), every command line
whose command name differs from s is emitted as its original content
(trimmed and redacted) with no state change; and provided s is NOT one of
the built-in command names, a line whose command name equals s produces no
row and clears the stop token.  (When s collides with a built-in name, the
built-in case matches first and the token is not cleared — see the
counterexample.) -/
theorem c5_stop_commands (s : List Char) (hne : s ≠ [])
    (hbuiltin : s ∉ builtinCmds) :
    (∀ (r : Reporter) (e : Entry) (params : List Char),
      r.stopCommandEndToken = [] →
      matchCmd (trimRightCRLF e.message) = some (stopCommandsCmd, params, s) →
      r.parseLogRow e = (none, { r with stopCommandEndToken := s })) ∧
    (∀ (r : Reporter) (e : Entry) (c params value : List Char),
      r.stopCommandEndToken = s →
      matchCmd (trimRightCRLF e.message) = some (c, params, value) →
      c ≠ s →
      r.parseLogRow e =
        (some ⟨e.time, goReplace r.oldnew (trimRightCRLF e.message)⟩, r)) ∧
    (∀ (r : Reporter) (e : Entry) (params value : List Char),
      r.stopCommandEndToken = s →
      matchCmd (trimRightCRLF e.message) = some (s, params, value) →
      r.parseLogRow e = (none, { r with stopCommandEndToken := [] })) := by
  have hb : s ≠ addMaskCmd ∧ s ≠ debugCmd ∧ s ≠ noticeCmd ∧ s ≠ warningCmd ∧
      s ≠ errorCmd ∧ s ≠ groupCmd ∧ s ≠ endgroupCmd ∧ s ≠ stopCommandsCmd := by
    simpa [builtinCmds] using hbuiltin
  refine ⟨?_, ?_, ?_⟩
  · intro r e params htoken hm
    rw [Reporter.parseLogRow_cmd r e stopCommandsCmd params s hm]
    have hg : ¬(r.stopCommandEndToken ≠ [] ∧ stopCommandsCmd ≠ r.stopCommandEndToken) := by
      rw [htoken]; simp
    unfold Reporter.handleCommand
    rw [if_neg hg, if_neg (by decide : ¬(stopCommandsCmd = addMaskCmd)),
      if_neg (by decide : ¬(stopCommandsCmd = debugCmd)),
      if_neg (by decide : ¬(stopCommandsCmd = noticeCmd)),
      if_neg (by decide : ¬(stopCommandsCmd = warningCmd)),
      if_neg (by decide : ¬(stopCommandsCmd = errorCmd)),
      if_neg (by decide : ¬(stopCommandsCmd = groupCmd)),
      if_neg (by decide : ¬(stopCommandsCmd = endgroupCmd)),
      if_pos rfl]
  · intro r e c params value htoken hm hc
    rw [Reporter.parseLogRow_cmd r e c params value hm]
    have hg : r.stopCommandEndToken ≠ [] ∧ c ≠ r.stopCommandEndToken := by
      rw [htoken]; exact ⟨hne, hc⟩
    unfold Reporter.handleCommand
    rw [if_pos hg]
  · intro r e params value htoken hm
    rw [Reporter.parseLogRow_cmd r e s params value hm]
    have hg : ¬(r.stopCommandEndToken ≠ [] ∧ s ≠ r.stopCommandEndToken) := by
      rw [htoken]; simp
    unfold Reporter.handleCommand
    rw [if_neg hg, if_neg hb.1, if_neg hb.2.1, if_neg hb.2.2.1,
      if_neg hb.2.2.2.1, if_neg hb.2.2.2.2.1, if_neg hb.2.2.2.2.2.1,
      if_neg hb.2.2.2.2.2.2.1, if_neg hb.2.2.2.2.2.2.2, htoken, if_pos rfl]

theorem c5_stop_commands_witness :
    Reporter.parseLogRow { } { time := 0, message := "::stop-commands::T".toList } =
      (none, { stopCommandEndToken := ['T'] }) ∧
    Reporter.parseLogRow { stopCommandEndToken := ['T'] }
        { time := 1, message := "::debug::x".toList } =
      (some ⟨1, "::debug::x".toList⟩, { stopCommandEndToken := ['T'] }) ∧
    Reporter.parseLogRow { stopCommandEndToken := ['T'] }
        { time := 2, message := "::T::".toList } =
      (none, { }) := by
  obtain ⟨h1, h2, h3⟩ := c5_stop_commands ['T'] (by decide) (by decide)
  refine ⟨?_, ?_, ?_⟩
  · rw [h1 { } { time := 0, message := "::stop-commands::T".toList } [] rfl
      (by decide)]
  · rw [h2 { stopCommandEndToken := ['T'] }
      { time := 1, message := "::debug::x".toList } debugCmd [] ['x'] rfl
      (by decide) (by decide)]
    decide
  · rw [h3 { stopCommandEndToken := ['T'] }
      { time := 2, message := "::T::".toList } [] [] rfl (by decide)]

/-- C6 counterexample: the claim says that after `::add-mask::v` every
occurrence of v in later rows is replaced with stars.  With v = `*a`, the
row `**aa` is emitted as `****a`, which still contains an occurrence of
`*a`: replacement-introduced stars can recreate a mask that itself contains
a star. -/
theorem c6_counterexample :
    Reporter.parseLogRow { } { time := 0, message := "::add-mask::*a".toList } =
      (none, { oldnew := [("*a".toList, stars)] }) ∧
    (Reporter.parseLogRow { oldnew := [("*a".toList, stars)] }
        { time := 1, message := "**aa".toList }).1 =
      some ⟨1, "****a".toList⟩ ∧
    "*a".toList <:+: "****a".toList := by
  refine ⟨?_, ?_, ?_⟩ <;> decide

/-- C6 amended: outside an active stop scope, a `::add-mask::v` line (v
nonempty, newline/CR-free) produces no row and appends (v, stars) to the
redaction table; and provided all masks — v included — are nonempty and
star-free, v does not occur in any row the updated reporter ever emits.
(A mask containing `*` can re-occur in masked output — see the
counterexample.) -/
theorem c6_add_mask (r : Reporter) (v : List Char)
    (htoken : r.stopCommandEndToken = [])
    (hv : v ≠ []) (hnl : '\n' ∉ v) (hcr : '\r' ∉ v) :
    (∀ t : Nat,
      r.parseLogRow { time := t, message := "::add-mask::".toList ++ v } =
        (none, { r with oldnew := r.oldnew ++ [(v, stars)] })) ∧
    ((∀ p ∈ r.oldnew, p.2 = stars ∧ p.1 ≠ [] ∧ '*' ∉ p.1) → '*' ∉ v →
      ∀ (e : Entry) (row : LogRow) (r'' : Reporter),
        Reporter.parseLogRow { r with oldnew := r.oldnew ++ [(v, stars)] } e =
          (some row, r'') →
        ¬ v <:+: row.content) := by
  constructor
  · intro t
    have hm : matchCmd (trimRightCRLF
        (({ time := t, message := "::add-mask::".toList ++ v } : Entry)).message) =
        some (addMaskCmd, [], v) := by
      show matchCmd (trimRightCRLF ("::add-mask::".toList ++ v)) = _
      rw [trim_append_no_crlf _ v hv hnl hcr]
      exact matchCmd_add_mask v hnl
    rw [Reporter.parseLogRow_cmd r _ addMaskCmd [] v hm]
    have hg : ¬(r.stopCommandEndToken ≠ [] ∧ addMaskCmd ≠ r.stopCommandEndToken) := by
      rw [htoken]; simp
    unfold Reporter.handleCommand
    rw [if_neg hg, if_pos rfl]
    rfl
  · intro htable hstar e row r'' hparse
    obtain ⟨-, s, hs⟩ := Reporter.parseLogRow_row_content _ e row r'' hparse
    rw [hs]
    have hR : ∀ p ∈ r.oldnew ++ [(v, stars)], p.2 = stars := by
      intro p hp
      rcases List.mem_append.mp hp with h | h
      · exact (htable p h).1
      · simp only [List.mem_singleton] at h; rw [h]
    have hNE : ∀ p ∈ r.oldnew ++ [(v, stars)], p.1 ≠ [] := by
      intro p hp
      rcases List.mem_append.mp hp with h | h
      · exact (htable p h).2.1
      · simp only [List.mem_singleton] at h; rw [h]; exact hv
    have hSt : ∀ p ∈ r.oldnew ++ [(v, stars)], '*' ∉ p.1 := by
      intro p hp
      rcases List.mem_append.mp hp with h | h
      · exact (htable p h).2.2
      · simp only [List.mem_singleton] at h; rw [h]; exact hstar
    have := goReplace_no_pattern (r.oldnew ++ [(v, stars)]) hR hNE hSt s
      (v, stars) (by simp)
    simpa using this

theorem c6_add_mask_witness :
    Reporter.parseLogRow { } { time := 0, message := "::add-mask::sec".toList } =
      (none, { oldnew := [("sec".toList, stars)] }) ∧
    ¬ "sec".toList <:+: "a *** b".toList := by
  obtain ⟨h1, h2⟩ := c6_add_mask { } ("sec".toList) rfl (by decide) (by decide)
    (by decide)
  constructor
  · exact h1 0
  · exact h2 (by simp) (by decide) { time := 1, message := "a sec b".toList }
      ⟨1, "a *** b".toList⟩ { oldnew := [("sec".toList, stars)] } (by decide)

/-- C9 counterexample: with debug output enabled, the row produced from
`::debug::::add-mask::x` is `::add-mask::x`; re-parsing that content with
the same reporter state interprets the add-mask command and produces no row
(and mutates the mask table) — the parser is not idempotent on its own
output. -/
theorem c9_counterexample :
    Reporter.parseLogRow { debugOutputEnabled := true }
        { time := 0, message := "::debug::::add-mask::x".toList } =
      (some ⟨0, "::add-mask::x".toList⟩, { debugOutputEnabled := true }) ∧
    Reporter.parseLogRow { debugOutputEnabled := true }
        { time := 1, message := "::add-mask::x".toList } =
      (none, { debugOutputEnabled := true, oldnew := [(['x'], stars)] }) := by
  refine ⟨?_, ?_⟩ <;> decide

/-- C9 amended: re-parsing a produced row content with the same reporter
state returns it unchanged provided the content does not itself match the
command regex and no (nonempty) mask pattern occurs in it.  Command-shaped
outputs (annotation passthrough, stop-scope plain emission, debug payloads)
are re-interpreted, and a mask containing `*` can re-occur in masked output,
as the counterexample shows. -/
theorem c9_reparse_id (r : Reporter) (content : List Char) (t : Nat)
    (hnocmd : matchCmd content = none)
    (htrim : trimRightCRLF content = content)
    (hmask : ∀ p ∈ r.oldnew, p.1 ≠ [] ∧ ¬ p.1 <:+: content) :
    r.parseLogRow { time := t, message := content } =
      (some ⟨t, content⟩, r) := by
  have hm : matchCmd (trimRightCRLF
      (({ time := t, message := content } : Entry)).message) = none := by
    show matchCmd (trimRightCRLF content) = none
    rw [htrim]; exact hnocmd
  rw [Reporter.parseLogRow_plain r _ hm]
  rw [show trimRightCRLF (({ time := t, message := content } : Entry)).message
    = content from htrim]
  rw [goReplace_id r.oldnew (fun p hp => (hmask p hp).1) content
    (fun p hp => (hmask p hp).2)]

theorem c9_reparse_id_witness :
    Reporter.parseLogRow { oldnew := [("sec".toList, stars)] }
        { time := 3, message := "hello".toList } =
      (some ⟨3, "hello".toList⟩, { oldnew := [("sec".toList, stars)] }) :=
  c9_reparse_id { oldnew := [("sec".toList, stars)] } ("hello".toList) 3
    (by decide) (by decide) (by decide)

/-- C10 counterexample: the claim says NewReporter seeds token, runtime token
and secret values each only when non-empty.  The secrets loop has no
emptiness check: with a single empty secret value the code seeds ("", stars)
— differing from the claimed table, which is empty — and a plain row `ab` is
then emitted as `***a***b***` instead of `ab` (the Go replacer inserts the
replacement at every position for an empty pattern). -/
theorem c10_counterexample :
    (NewReporter c10Task).oldnew = [([], stars)] ∧
    (NewReporter c10Task).oldnew ≠ specSeedMasks c10Task ∧
    (Reporter.parseLogRow (NewReporter c10Task)
        { time := 0, message := "ab".toList }).1 =
      some ⟨0, "***a***b***".toList⟩ := by
  refine ⟨?_, ?_, ?_⟩ <;> decide

/-- C10 amended: NewReporter seeds the redaction table with the context
token and gitea_runtime_token when non-empty and with every secret value
unconditionally (empty secret values included); when every seeded string is
non-empty and star-free, no seeded string occurs in any row parseLogRow
emits. -/
theorem c10_seed_masks (task : Task)
    (hsec : ∀ kv ∈ task.secrets, kv.2 ≠ [] ∧ '*' ∉ kv.2)
    (htok : '*' ∉ task.contextToken) (hrt : '*' ∉ task.contextRuntimeToken) :
    (NewReporter task).oldnew =
      (if task.contextToken ≠ [] then [(task.contextToken, stars)] else []) ++
      (if task.contextRuntimeToken ≠ [] then [(task.contextRuntimeToken, stars)]
        else []) ++
      task.secrets.map (fun kv => (kv.2, stars)) ∧
    ∀ (e : Entry) (row : LogRow) (r' : Reporter),
      (NewReporter task).parseLogRow e = (some row, r') →
      ∀ q ∈ (NewReporter task).oldnew, ¬ q.1 <:+: row.content := by
  have hfields : ∀ p ∈ (NewReporter task).oldnew,
      p.2 = stars ∧ p.1 ≠ [] ∧ '*' ∉ p.1 := by
    intro p hp
    simp only [NewReporter, List.mem_append] at hp
    rcases hp with (hp | hp) | hp
    · by_cases h : task.contextToken ≠ []
      · rw [if_pos h] at hp
        simp only [List.mem_singleton] at hp
        rw [hp]
        exact ⟨rfl, h, htok⟩
      · rw [if_neg h] at hp
        cases hp
    · by_cases h : task.contextRuntimeToken ≠ []
      · rw [if_pos h] at hp
        simp only [List.mem_singleton] at hp
        rw [hp]
        exact ⟨rfl, h, hrt⟩
      · rw [if_neg h] at hp
        cases hp
    · obtain ⟨kv, hkv, hpe⟩ := List.mem_map.mp hp
      rw [← hpe]
      exact ⟨rfl, (hsec kv hkv).1, (hsec kv hkv).2⟩
  constructor
  · rfl
  · intro e row r' hparse q hq
    obtain ⟨-, s, hs⟩ :=
      Reporter.parseLogRow_row_content (NewReporter task) e row r' hparse
    rw [hs]
    exact goReplace_no_pattern (NewReporter task).oldnew
      (fun p hp => (hfields p hp).1) (fun p hp => (hfields p hp).2.1)
      (fun p hp => (hfields p hp).2.2) s q hq

theorem c10_seed_masks_witness :
    (Reporter.parseLogRow (NewReporter c10WTask)
        { time := 0, message := "a tok b".toList }).1 =
      some ⟨0, "a *** b".toList⟩ ∧
    ¬ "tok".toList <:+: "a *** b".toList := by
  refine ⟨by decide, ?_⟩
  have h := (c10_seed_masks c10WTask (by decide) (by decide) (by decide)).2
    { time := 0, message := "a tok b".toList } ⟨0, "a *** b".toList⟩
    (NewReporter c10WTask) (by decide) ("tok".toList, stars) (by decide)
  simpa using h

/-! ### Write-once analysis of Fire (claim C4) -/

theorem modifyStep_length (l : List StepState) (i : Nat)
    (f : StepState → StepState) : (modifyStep l i f).length = l.length := by
  unfold modifyStep
  split
  next s hs => simp
  next hs => rfl

theorem modifyStep_getElem (l : List StepState) (i : Nat)
    (f : StepState → StepState) (j : Nat) :
    (modifyStep l i f)[j]? = if i = j then (l[j]?).map f else l[j]? := by
  unfold modifyStep
  split
  next s hs =>
    by_cases hij : i = j
    · subst hij
      obtain ⟨hlt, -⟩ := List.getElem?_eq_some_iff.mp hs
      rw [if_pos rfl, List.getElem?_set, if_pos rfl, if_pos hlt, hs]
      rfl
    · rw [if_neg hij, List.getElem?_set_ne hij]
  next hs =>
    by_cases hij : i = j
    · subst hij
      rw [if_pos rfl, hs]
      rfl
    · rw [if_neg hij]

theorem modifyStep_startedAt (l : List StepState) (i : Nat)
    (f : StepState → StepState) (hf : ∀ s, (f s).startedAt = s.startedAt) :
    ∀ (j : Nat) (st st' : StepState), l[j]? = some st → (modifyStep l i f)[j]? = some st' →
      st'.startedAt = st.startedAt := by
  intro j st st' hst hst'
  rw [modifyStep_getElem] at hst'
  by_cases hij : i = j
  · rw [if_pos hij, hst] at hst'
    cases hst'
    exact hf st
  · rw [if_neg hij, hst] at hst'
    cases hst'
    rfl

theorem modifyStep_preserves (l : List StepState) (i : Nat)
    (f : StepState → StepState)
    (hf : ∀ s, (f s).result = s.result ∧ (f s).stoppedAt = s.stoppedAt ∧
      (f s).startedAt = s.startedAt) :
    ∀ (j : Nat) (st st' : StepState), l[j]? = some st → (modifyStep l i f)[j]? = some st' →
      st'.result = st.result ∧ st'.stoppedAt = st.stoppedAt ∧
      st'.startedAt = st.startedAt := by
  intro j st st' hst hst'
  rw [modifyStep_getElem] at hst'
  by_cases hij : i = j
  · rw [if_pos hij, hst] at hst'
    cases hst'
    exact hf st
  · rw [if_neg hij, hst] at hst'
    cases hst'
    exact ⟨rfl, rfl, rfl⟩

theorem stepsPreserve_refl (l : List StepState) : StepsPreserve l l := by
  refine ⟨rfl, ?_⟩
  intro j st st' hst hst'
  rw [hst] at hst'
  cases hst'
  exact ⟨rfl, rfl, rfl⟩

theorem stepsPreserve_of_eq {l l' : List StepState} (h : l' = l) :
    StepsPreserve l l' := h ▸ stepsPreserve_refl l

theorem stepsPreserve_trans {l1 l2 l3 : List StepState}
    (h1 : StepsPreserve l1 l2) (h2 : StepsPreserve l2 l3) :
    StepsPreserve l1 l3 := by
  refine ⟨h2.1.trans h1.1, ?_⟩
  intro j st st' hst hst'
  have hj : j < l2.length := by
    obtain ⟨hlt, -⟩ := List.getElem?_eq_some_iff.mp hst
    rw [h1.1]
    exact hlt
  have hmid : l2[j]? = some l2[j] := List.getElem?_eq_getElem hj
  obtain ⟨a1, b1, c1⟩ := h1.2 j st _ hst hmid
  obtain ⟨a2, b2, c2⟩ := h2.2 j _ st' hmid hst'
  exact ⟨a2.trans a1, b2.trans b1, c2.trans c1⟩

theorem stepsPreserve_modifyStep (l : List StepState) (i : Nat)
    (f : StepState → StepState)
    (hf : ∀ s, (f s).result = s.result ∧ (f s).stoppedAt = s.stoppedAt ∧
      (f s).startedAt = s.startedAt) :
    StepsPreserve l (modifyStep l i f) :=
  ⟨modifyStep_length l i f, modifyStep_preserves l i f hf⟩

theorem fireNoStep_frames (r : Reporter) (e : Entry) :
    (r.fireNoStep e).result = r.result ∧
    (r.fireNoStep e).stoppedAt = r.stoppedAt ∧
    (r.fireNoStep e).startedAt = r.startedAt ∧
    (r.fireNoStep e).steps = r.steps := by
  unfold Reporter.fireNoStep
  split
  · exact ⟨rfl, rfl, rfl, rfl⟩
  · obtain ⟨h1, h2, h3, h4, h5, h6⟩ := Reporter.parseLogRow_preserves r e
    exact ⟨h1, h3, h4, h2⟩

theorem fireSetupTeardown_frames (r : Reporter) (e : Entry) :
    ((e.jobResult.bind parseResult) = none →
      (r.fireSetupTeardown e).result = r.result ∧
      (r.fireSetupTeardown e).stoppedAt = r.stoppedAt ∧
      (r.fireSetupTeardown e).steps = r.steps) ∧
    (r.fireSetupTeardown e).startedAt = r.startedAt ∧
    (r.fireSetupTeardown e).steps.length = r.steps.length ∧
    (∀ (j : Nat) (st st' : StepState), r.steps[j]? = some st →
      (r.fireSetupTeardown e).steps[j]? = some st' →
      st'.stoppedAt = st.stoppedAt ∧ st'.startedAt = st.startedAt) := by
  unfold Reporter.fireSetupTeardown
  cases hjr : e.jobResult with
  | none =>
    dsimp only
    obtain ⟨h1, h2, h3, h4⟩ := fireNoStep_frames r e
    refine ⟨fun _ => ⟨h1, h2, h4⟩, h3, by rw [h4], ?_⟩
    intro j st st' hst hst'
    rw [h4, hst] at hst'
    cases hst'
    exact ⟨rfl, rfl⟩
  | some jv =>
    dsimp only
    cases hpr : parseResult jv with
    | none =>
      dsimp only
      obtain ⟨h1, h2, h3, h4⟩ := fireNoStep_frames r e
      refine ⟨fun _ => ⟨h1, h2, h4⟩, h3, by rw [h4], ?_⟩
      intro j st st' hst hst'
      rw [h4, hst] at hst'
      cases hst'
      exact ⟨rfl, rfl⟩
    | some jr =>
      dsimp only
      obtain ⟨h1, h2, h3, h4⟩ := fireNoStep_frames
        { r with
          result := jr
          stoppedAt := some e.time
          steps := r.steps.map fun (s : StepState) =>
            if s.result = Result.unspecified then
              { s with result := if jr = Result.skipped then Result.skipped
                       else Result.cancelled }
            else s } e
      refine ⟨fun hn => by simp [hpr] at hn, h3, by rw [h4]; simp, ?_⟩
      intro j st st' hst hst'
      rw [h4] at hst'
      simp only [List.getElem?_map, hst, Option.map_some'] at hst'
      injection hst' with hst''
      subst hst''
      split <;> exact ⟨rfl, rfl⟩

theorem fireStepStart_frames (r : Reporter) (e : Entry) (i : Nat) :
    (r.fireStepStart e i).result = r.result ∧
    (r.fireStepStart e i).stoppedAt = r.stoppedAt ∧
    (r.fireStepStart e i).startedAt = r.startedAt ∧
    (r.fireStepStart e i).steps.length = r.steps.length ∧
    (∀ j, j ≠ i → (r.fireStepStart e i).steps[j]? = r.steps[j]?) ∧
    (∀ (st : StepState), r.steps[i]? = some st →
      ∃ st', (r.fireStepStart e i).steps[i]? = some st' ∧
        st'.result = st.result ∧ st'.stoppedAt = st.stoppedAt ∧
        (st.startedAt ≠ none → st' = st)) := by
  unfold Reporter.fireStepStart
  split
  next hcond =>
    refine ⟨rfl, rfl, rfl, modifyStep_length r.steps i _, ?_, ?_⟩
    · intro j hj
      show (modifyStep r.steps i _)[j]? = r.steps[j]?
      rw [modifyStep_getElem, if_neg (fun h => hj h.symm)]
    · intro st hst
      refine ⟨{ st with startedAt := some e.time }, ?_, rfl, rfl, ?_⟩
      · show (modifyStep r.steps i _)[i]? = _
        rw [modifyStep_getElem, if_pos rfl, hst]
        rfl
      · intro hne
        have hgd : r.steps.getD i default = st := by
          rw [List.getD_eq_getElem?_getD, hst]
          rfl
        rw [← hgd] at hne
        exact absurd hcond hne
  next hcond =>
    refine ⟨rfl, rfl, rfl, rfl, fun j _ => rfl, ?_⟩
    intro st hst
    exact ⟨st, hst, rfl, rfl, fun _ => rfl⟩

theorem fireStepRaw_frames (r : Reporter) (e : Entry) (i : Nat) :
    (r.fireStepRaw e i).result = r.result ∧
    (r.fireStepRaw e i).stoppedAt = r.stoppedAt ∧
    (r.fireStepRaw e i).startedAt = r.startedAt ∧
    StepsPreserve r.steps (r.fireStepRaw e i).steps := by
  obtain ⟨p1, p2, p3, p4, p5, p6⟩ := Reporter.parseLogRow_preserves r e
  unfold Reporter.fireStepRaw
  cases hro : e.rawOutput with
  | none =>
    dsimp only
    split
    · exact ⟨rfl, rfl, rfl, stepsPreserve_refl _⟩
    · exact ⟨p1, p3, p4, stepsPreserve_of_eq p2⟩
  | some b =>
    dsimp only
    cases b with
    | false => exact ⟨rfl, rfl, rfl, stepsPreserve_refl _⟩
    | true =>
      rw [if_pos rfl]
      cases hrow : (r.parseLogRow e).1 with
      | none => exact ⟨p1, p3, p4, stepsPreserve_of_eq p2⟩
      | some row =>
        dsimp only
        refine ⟨by split <;> exact p1, by split <;> exact p3,
          by split <;> exact p4, ?_⟩
        refine stepsPreserve_trans ?_
          (stepsPreserve_modifyStep _ i _ (fun s => ⟨rfl, rfl, rfl⟩))
        split
        · exact stepsPreserve_trans (stepsPreserve_of_eq p2)
            (stepsPreserve_modifyStep _ i _ (fun s => ⟨rfl, rfl, rfl⟩))
        · exact stepsPreserve_of_eq p2

theorem fireStepResult_frames (r : Reporter) (e : Entry) (i : Nat) :
    (r.fireStepResult e i).result = r.result ∧
    (r.fireStepResult e i).stoppedAt = r.stoppedAt ∧
    (r.fireStepResult e i).startedAt = r.startedAt ∧
    (r.fireStepResult e i).steps.length = r.steps.length ∧
    (∀ j, j ≠ i → (r.fireStepResult e i).steps[j]? = r.steps[j]?) ∧
    (∀ (j : Nat) (st st' : StepState), r.steps[j]? = some st →
      (r.fireStepResult e i).steps[j]? = some st' →
      st'.startedAt = st.startedAt) ∧
    ((e.stepResult.bind parseResult) = none → r.fireStepResult e i = r) := by
  unfold Reporter.fireStepResult
  cases hsr : e.stepResult with
  | none =>
    dsimp only
    refine ⟨rfl, rfl, rfl, rfl, fun j _ => rfl, ?_, fun _ => rfl⟩
    intro j st st' hst hst'
    rw [hst] at hst'
    cases hst'
    rfl
  | some sv =>
    dsimp only
    cases hpr : parseResult sv with
    | none =>
      dsimp only
      refine ⟨rfl, rfl, rfl, rfl, fun j _ => rfl, ?_, fun _ => rfl⟩
      intro j st st' hst hst'
      rw [hst] at hst'
      cases hst'
      rfl
    | some sr =>
      dsimp only
      have hmid : StepsPreserve r.steps
          (if (r.steps.getD i default).logLength = 0 then
            { r with steps := modifyStep r.steps i fun s =>
                { s with logIndex := r.logOffset + (r.logRows.length : Int) } }
          else r).steps := by
        split
        · exact stepsPreserve_modifyStep _ i _ (fun s => ⟨rfl, rfl, rfl⟩)
        · exact stepsPreserve_refl _
      refine ⟨?_, ?_, ?_, ?_, ?_, ?_, ?_⟩
      · split <;> rfl
      · split <;> rfl
      · split <;> rfl
      · show (modifyStep _ i _).length = _
        rw [modifyStep_length, hmid.1]
      · intro j hj
        show (modifyStep _ i _)[j]? = _
        rw [modifyStep_getElem, if_neg (fun h => hj h.symm)]
        split
        · show (modifyStep r.steps i _)[j]? = _
          rw [modifyStep_getElem, if_neg (fun h => hj h.symm)]
        · rfl
      · intro j st st' hst hst'
        have hj : j < (if (r.steps.getD i default).logLength = 0 then
            { r with steps := modifyStep r.steps i fun s =>
                { s with logIndex := r.logOffset + (r.logRows.length : Int) } }
          else r).steps.length := by
          obtain ⟨hlt, -⟩ := List.getElem?_eq_some_iff.mp hst
          rw [hmid.1]
          exact hlt
        have hm := List.getElem?_eq_getElem hj
        obtain ⟨-, -, c1⟩ := hmid.2 j st _ hst hm
        have c2 := modifyStep_startedAt _ i
          (fun s => { s with result := sr, stoppedAt := some e.time })
          (fun s => rfl) j _ st' hm hst'
        exact c2.trans c1
      · intro hn
        simp [hpr] at hn

theorem fireStep_frames (r : Reporter) (e : Entry) (i : Nat) :
    (r.fireStep e i).result = r.result ∧
    (r.fireStep e i).stoppedAt = r.stoppedAt ∧
    (r.fireStep e i).startedAt = r.startedAt ∧
    (r.fireStep e i).steps.length = r.steps.length ∧
    (∀ (j : Nat) (st st' : StepState), j ≠ i → r.steps[j]? = some st →
      (r.fireStep e i).steps[j]? = some st' →
      st'.result = st.result ∧ st'.stoppedAt = st.stoppedAt ∧
      st'.startedAt = st.startedAt) ∧
    (∀ (st st' : StepState), r.steps[i]? = some st →
      (r.fireStep e i).steps[i]? = some st' →
      (st.startedAt ≠ none → st'.startedAt = st.startedAt) ∧
      ((e.stepResult.bind parseResult) = none →
        st'.result = st.result ∧ st'.stoppedAt = st.stoppedAt)) := by
  obtain ⟨s1, s2, s3, s4, s5, s6⟩ := fireStepStart_frames r e i
  obtain ⟨w1, w2, w3, wps⟩ := fireStepRaw_frames (r.fireStepStart e i) e i
  obtain ⟨q1, q2, q3, q4, q5, q6, q7⟩ :=
    fireStepResult_frames ((r.fireStepStart e i).fireStepRaw e i) e i
  unfold Reporter.fireStep
  refine ⟨?_, ?_, ?_, ?_, ?_, ?_⟩
  · exact (q1.trans w1).trans s1
  · exact (q2.trans w2).trans s2
  · exact (q3.trans w3).trans s3
  · exact (q4.trans wps.1).trans s4
  · intro j st st' hj hst hst'
    have hst1 : (r.fireStepStart e i).steps[j]? = some st := by
      rw [s5 j hj]; exact hst
    have hst2 : ((r.fireStepStart e i).fireStepRaw e i).steps[j]? = some st' := by
      rw [← q5 j hj]; exact hst'
    exact wps.2 j st st' hst1 hst2
  · intro st st' hst hst'
    obtain ⟨st1, hst1, ha, hb, hc⟩ := s6 st hst
    have hi2 : i < ((r.fireStepStart e i).fireStepRaw e i).steps.length := by
      obtain ⟨hlt, -⟩ := List.getElem?_eq_some_iff.mp hst1
      rw [wps.1]
      exact hlt
    have hst2 : ((r.fireStepStart e i).fireStepRaw e i).steps[i]? =
        some (((r.fireStepStart e i).fireStepRaw e i).steps[i]) :=
      List.getElem?_eq_getElem hi2
    obtain ⟨e1, e2, e3⟩ := wps.2 i st1 _ hst1 hst2
    constructor
    · intro hne
      have h1 := q6 i _ st' hst2 hst'
      rw [h1, e3, hc hne]
    · intro hbind
      rw [q7 hbind, hst2] at hst'
      injection hst' with hst''
      subst hst''
      exact ⟨e1.trans ha, e2.trans hb⟩

/-- C4 counterexample: the claim says the task result and StoppedAt are
written at most once per task and never overwritten.  Fire has no guard: a
first jobResult entry sets result Success and StoppedAt 0; a second
jobResult entry overwrites them with Failure and StoppedAt 1. -/
theorem c4_counterexample :
    (Reporter.fireAll { } [c4Entry1]).map Reporter.result = some Result.success ∧
    (Reporter.fireAll { } [c4Entry1]).map Reporter.stoppedAt = some (some 0) ∧
    (Reporter.fireAll { } [c4Entry1, c4Entry2]).map Reporter.result =
      some Result.failure ∧
    (Reporter.fireAll { } [c4Entry1, c4Entry2]).map Reporter.stoppedAt =
      some (some 1) := by
  refine ⟨?_, ?_, ?_, ?_⟩ <;> decide

/-- C4 amended: per Fire call (when it does not panic), the task StartedAt
and a step StartedAt are written at most once (never overwritten once set);
the task result and StoppedAt change only on an entry carrying a parseable
jobResult outside the Main stage; a step result changes only on such a
jobResult entry or on a Main-stage entry selecting that step with a
parseable stepResult, and a step StoppedAt only on the latter.  Entries that
do carry such fields overwrite unconditionally (see the counterexample), so
writes happen at most once only when the stream carries at most one such
entry per target, as the executor produces. -/
theorem c4_write_once (r : Reporter) (e : Entry) (r' : Reporter)
    (h : r.fire e = some r') :
    (r.startedAt ≠ none → r'.startedAt = r.startedAt) ∧
    (¬ writesTaskResult e → r'.result = r.result ∧ r'.stoppedAt = r.stoppedAt) ∧
    (∀ (i : Nat) (st st' : StepState), r.steps[i]? = some st →
      r'.steps[i]? = some st' →
      (st.startedAt ≠ none → st'.startedAt = st.startedAt) ∧
      (¬ writesTaskResult e → ¬ writesStepResult e i r.steps.length →
        st'.result = st.result) ∧
      (¬ writesStepResult e i r.steps.length → st'.stoppedAt = st.stoppedAt)) := by
  simp only [Reporter.fire] at h
  set r0 : Reporter :=
    if r.startedAt = none then { r with startedAt := some e.time } else r with hr0
  have hres : r0.result = r.result := by rw [hr0]; split <;> rfl
  have hstop : r0.stoppedAt = r.stoppedAt := by rw [hr0]; split <;> rfl
  have hsteps : r0.steps = r.steps := by rw [hr0]; split <;> rfl
  have hstarted : r.startedAt ≠ none → r0 = r := by
    intro hne
    rw [hr0, if_neg hne]
  by_cases hstage : e.stage ≠ some mainStage
  · rw [if_pos hstage] at h
    injection h with h
    subst h
    obtain ⟨f1, f2, f3, f4⟩ := fireSetupTeardown_frames r0 e
    have hbind_of : ¬ writesTaskResult e → (e.jobResult.bind parseResult) = none := by
      intro hw
      rcases hbb : e.jobResult.bind parseResult with _ | x
      · rfl
      · exact absurd ⟨hstage, by rw [hbb]; rfl⟩ hw
    refine ⟨?_, ?_, ?_⟩
    · intro hne
      rw [f2, hstarted hne]
    · intro hw
      obtain ⟨g1, g2, g3⟩ := f1 (hbind_of hw)
      exact ⟨g1.trans hres, g2.trans hstop⟩
    · intro i st st' hst hst'
      have hst0 : r0.steps[i]? = some st := by rw [hsteps]; exact hst
      refine ⟨?_, ?_, ?_⟩
      · intro _
        exact (f4 i st st' hst0 hst').2
      · intro hw _
        obtain ⟨g1, g2, g3⟩ := f1 (hbind_of hw)
        rw [g3, hsteps, hst] at hst'
        injection hst' with hst''
        subst hst''
        rfl
      · intro _
        exact (f4 i st st' hst0 hst').1
  · have hstageEq : e.stage = some mainStage := not_not.mp hstage
    rw [if_neg hstage] at h
    have hwt : ∀ P : Prop, ¬ writesTaskResult e → P → P := fun _ _ hp => hp
    cases hsn : e.stepNumber with
    | none =>
      rw [hsn] at h
      dsimp only at h
      injection h with h
      subst h
      obtain ⟨f1, f2, f3, f4⟩ := fireNoStep_frames r0 e
      refine ⟨?_, ?_, ?_⟩
      · intro hne
        rw [f3, hstarted hne]
      · intro _
        exact ⟨f1.trans hres, f2.trans hstop⟩
      · intro i st st' hst hst'
        rw [f4, hsteps, hst] at hst'
        injection hst' with hst''
        subst hst''
        exact ⟨fun _ => rfl, fun _ _ => rfl, fun _ => rfl⟩
    | some v =>
      rw [hsn] at h
      dsimp only at h
      by_cases hlen : ((r0.steps.length : Int)) > v
      · rw [if_pos hlen] at h
        by_cases hv : v < 0
        · rw [if_pos hv] at h
          cases h
        · rw [if_neg hv] at h
          injection h with h
          subst h
          obtain ⟨f1, f2, f3, f4, f5, f6⟩ := fireStep_frames r0 e v.toNat
          have hveq : ((v.toNat : Nat) : Int) = v :=
            Int.toNat_of_nonneg (le_of_not_lt hv)
          have hlenr : ((r.steps.length : Nat) : Int) > v := by
            rw [← hsteps]
            exact hlen
          refine ⟨?_, ?_, ?_⟩
          · intro hne
            rw [f3, hstarted hne]
          · intro _
            exact ⟨f1.trans hres, f2.trans hstop⟩
          · intro i st st' hst hst'
            have hst0 : r0.steps[i]? = some st := by rw [hsteps]; exact hst
            by_cases hii : i = v.toNat
            · subst hii
              have hmain := f6 st st' hst0 hst'
              have hbind_of : ¬ writesStepResult e v.toNat r.steps.length →
                  (e.stepResult.bind parseResult) = none := by
                intro hws
                rcases hbb : e.stepResult.bind parseResult with _ | x
                · rfl
                · exfalso
                  apply hws
                  refine ⟨hstageEq, ?_, ?_, ?_⟩
                  · rw [hsn, hveq]
                  · omega
                  · rw [hbb]; rfl
              refine ⟨hmain.1, ?_, ?_⟩
              · intro _ hws
                exact (hmain.2 (hbind_of hws)).1
              · intro hws
                exact (hmain.2 (hbind_of hws)).2
            · obtain ⟨a, b, c⟩ := f5 i st st' hii hst0 hst'
              exact ⟨fun _ => c, fun _ _ => a, fun _ => b⟩
      · rw [if_neg hlen] at h
        injection h with h
        subst h
        obtain ⟨f1, f2, f3, f4⟩ := fireNoStep_frames r0 e
        refine ⟨?_, ?_, ?_⟩
        · intro hne
          rw [f3, hstarted hne]
        · intro _
          exact ⟨f1.trans hres, f2.trans hstop⟩
        · intro i st st' hst hst'
          rw [f4, hsteps, hst] at hst'
          injection hst' with hst''
          subst hst''
          exact ⟨fun _ => rfl, fun _ _ => rfl, fun _ => rfl⟩

theorem c4_write_once_witness :
    c4WReporter.fire c4WEntry = some c4WResult ∧
    c4WResult.startedAt = c4WReporter.startedAt ∧
    c4WResult.result = c4WReporter.result := by
  have hfire : c4WReporter.fire c4WEntry = some c4WResult := by decide
  have h := c4_write_once c4WReporter c4WEntry c4WResult hfire
  exact ⟨hfire, h.1 (by decide), (h.2.1 (by decide)).1⟩

end ActRunner
